import Mathlib

/-!
# Verification of the kassandra FMD service core

A shallow embedding, in Lean 4, of the core data structures and algorithms of
the kassandra fuzzy-message-detection service:

* the enclave's FMD tick (`src/enclave/src/fmd.rs`: `IndexSet`, `add_result`,
  `check_flags`) and main loop (`src/enclave/src/lib.rs`: `main`);
* the host's fetched-range tracking (`src/host/src/db/utils.rs`:
  `FetchedRanges::{first, contains, insert, simplify, find_index,
  blocks_left_to_fetch}`);
* the host's fetch-pipeline row writes and flag parsing
  (`src/host/src/db/fetch.rs`: `DbConn::extend` / `Drop`, and
  `src/host/src/db.rs`: `DB::get_height`);
* the shared index-list combination (`src/shared/src/db.rs`:
  `IndexList::combine`).

Machine integers (`u64`, `u32`) are modelled as `ℕ`: the source only uses
checked arithmetic on them (`checked_add`, `checked_sub`, plain `+ 1` on
block heights), so no wrap-around behaviour has to be reproduced.
External cryptographic primitives (ChaCha20-Poly1305 encryption, SHA-256
hashing, the FMD `detect` predicate, the CSPRNG) are modelled as opaque
function parameters gathered in an oracle structure: the code under
verification treats them as black boxes, and every theorem below is
universally quantified over them.
-/

/-! ## Shared domain types (`src/shared/src/db.rs`) -/

/-- The `Index`: simplified domain type for indexing a Tx on chain
(`src/shared/src/db.rs`). `height: u64`, `tx: u32`. -/
structure Index where
  height : ℕ
  tx : ℕ
deriving DecidableEq, Repr

/-- The `Index::as_bytes`: 12 bytes = 8-byte little-endian height followed by
4-byte little-endian tx. -/
def Index.asBytes (ix : Index) : List ℕ :=
  ((List.range 8).map fun i => ix.height / 256 ^ i % 256) ++
    ((List.range 4).map fun i => ix.tx / 256 ^ i % 256)

/-- The `EncryptedResponse`: the enclave's encrypted per-user answer
(`src/shared/src/db.rs`). -/
structure EncResp where
  owner : String
  nonce : ℕ
  indices : List ℕ
  height : ℕ
deriving DecidableEq, Repr

/-! ## Enclave FMD state (`src/enclave/src/fmd.rs`) -/

/-- The `IndexSet`: the current status of which MASP txs a user should trial
decrypt. -/
structure IndexSet where
  syncedTo : ℕ
  indices : List Index
deriving DecidableEq, Repr

/-- The `impl From<u64> for IndexSet`: `synced_to = value`, empty indices. -/
def IndexSet.fromU64 (value : ℕ) : IndexSet :=
  ⟨value, []⟩

/-- The `FmdKeyRegistration` (`src/shared/src/ratls.rs`): the detection key, the
response-encryption key and an optional birthday height.  The two keys are
opaque to all code verified here, so they are modelled as naturals. -/
structure Reg where
  fmdKey : ℕ
  encKey : ℕ
  birthday : Option ℕ
deriving DecidableEq, Repr

/-- The cryptographic capabilities used by the enclave, as opaque oracles:
`detect` is `MultiFmd2CompactScheme::detect` on a flag ciphertext (flags are
opaque naturals), `encrypt` is `ChaCha20Poly1305::encrypt` (returning either
an error string, the `e.to_string()` of the source, or a ciphertext), and
`hash` is `EncKey::hash` (hex-encoded SHA-256). -/
structure EnclaveOracles where
  detect : ℕ → ℕ → Bool
  encrypt : ℕ → ℕ → List ℕ → Except String (List ℕ)
  hash : ℕ → String

/-- The subset of `MsgToHost` (`src/shared/src/lib.rs`) that the embedded
enclave operations produce. -/
inductive MsgToHost where
  | Error (s : String)
  | KeyRegSuccess
  | Report (q : List ℕ)
  | BlockRequests (hs : List ℕ)
  | FmdResults (rs : List EncResp)
deriving DecidableEq, Repr

/-- The `IndexSet::index_bytes`: the 12-byte-record concatenation of the
indices. -/
def indexBytes (ixs : List Index) : List ℕ :=
  ixs.flatMap Index.asBytes

/-- The `IndexSet::add_result` (`src/enclave/src/fmd.rs:59-77`): encrypt the
current index set and append it to the accumulated response; an encryption
error turns the response into `Error`, and an already-error response is kept
(unless a fresh encryption error overwrites it).  The source's
`unreachable!()` arm (a response that is neither `FmdResults` nor `Error`)
is modelled as the identity; `check_flags` only ever passes those two
constructors. -/
def addResult (C : EnclaveOracles) (ixs : IndexSet) (encKey nonce : ℕ)
    (msg : MsgToHost) : MsgToHost :=
  match C.encrypt encKey nonce (indexBytes ixs.indices) with
  | .error e => .Error e
  | .ok ct =>
    match msg with
    | .Error s => .Error s
    | .FmdResults rs =>
      .FmdResults (rs ++ [⟨C.hash encKey, nonce, ct, ixs.syncedTo⟩])
    | other => other

/-- Whether a flag matches for a key: a missing flag matches
unconditionally, otherwise the FMD scheme decides
(`src/enclave/src/fmd.rs:109-112`). -/
def matchesFlag (C : EnclaveOracles) (key : Reg) : Option ℕ → Bool
  | none => true
  | some f => C.detect key.fmdKey f

/-- The per-entry index update of one tick: scan the input flags whose
height is the key's next height, in order, appending each match
(`src/enclave/src/fmd.rs:105-115`). -/
def scanFlags (C : EnclaveOracles) (key : Reg) (flags : List (Index × Option ℕ))
    (syncedTo : ℕ) (acc : List Index) : List Index :=
  (flags.filter fun p => p.1.height == syncedTo + 1).foldl
    (fun acc p => if matchesFlag C key p.2 then acc ++ [p.1] else acc) acc

/-- The body of `check_flags` (`src/enclave/src/fmd.rs:100-121`): walk the
registered keys in order; for each key whose cursor is below the horizon,
update its indices from the flags, draw the next nonce from the RNG stream,
fold its encryption into the response, and advance the cursor by one.
`rng i` is the `i`-th 12-byte nonce drawn from the enclave CSPRNG. -/
def checkFlagsGo (C : EnclaveOracles) (syncedTo : ℕ)
    (flags : List (Index × Option ℕ)) (rng : ℕ → ℕ) :
    List (Reg × IndexSet) → MsgToHost → ℕ →
      List (Reg × IndexSet) × MsgToHost
  | [], resp, _ => ([], resp)
  | (key, ixs) :: rest, resp, i =>
    if ixs.syncedTo < syncedTo then
      let newIndices := scanFlags C key flags ixs.syncedTo ixs.indices
      let nonce := rng i
      let resp' := addResult C ⟨ixs.syncedTo, newIndices⟩ key.encKey nonce resp
      let out := checkFlagsGo C syncedTo flags rng rest resp' (i + 1)
      ((key, ⟨ixs.syncedTo + 1, newIndices⟩) :: out.1, out.2)
    else
      let out := checkFlagsGo C syncedTo flags rng rest resp i
      ((key, ixs) :: out.1, out.2)

/-- The `check_flags` (`src/enclave/src/fmd.rs:89-123`): returns the updated
registered-key list and the message for the host. -/
def checkFlags (C : EnclaveOracles) (regs : List (Reg × IndexSet))
    (syncedTo : ℕ) (flags : List (Index × Option ℕ)) (rng : ℕ → ℕ) :
    List (Reg × IndexSet) × MsgToHost :=
  checkFlagsGo C syncedTo flags rng regs (.FmdResults []) 0

/-- The state transformation `check_flags` applies to a single registered
key (advance an eligible cursor by one and append the matched indices;
leave ineligible entries untouched). -/
def tickEntry (C : EnclaveOracles) (syncedTo : ℕ)
    (flags : List (Index × Option ℕ)) (e : Reg × IndexSet) : Reg × IndexSet :=
  if e.2.syncedTo < syncedTo then
    (e.1, ⟨e.2.syncedTo + 1, scanFlags C e.1 flags e.2.syncedTo e.2.indices⟩)
  else e

/-! ## Enclave main loop (`src/enclave/src/lib.rs`) -/

/-- The subset of `MsgFromHost` recognised by the enclave main loop; all
unrecognised variants are collapsed into `other`. -/
inductive MsgFromHost where
  | RegisterKey (nonce : ℕ) (pk : ℕ)
  | RequestReport (userData : ℕ)
  | RequiredBlocks
  | RequestedFlags (syncedTo : ℕ) (flags : List (Index × Option ℕ))
  | other
deriving Repr

/-- The enclave's environment for one main-loop iteration.
`regOutcome` — Modelled from the spec: the result of the RA-TLS
key-registration handshake run by `ratls::register_key`
(`src/enclave/src/ratls.rs` does not match the signature used by
`src/enclave/src/lib.rs`); per §4.2 step 6 of the spec it yields the
decrypted `FmdKeyRegistration` on success (after which `KeyRegSuccess` is
emitted) and nothing on any failure.  `quote` abstracts
`RemoteAttestation::get_quote`. -/
structure HostIface where
  C : EnclaveOracles
  rng : ℕ → ℕ
  regOutcome : ℕ → ℕ → Option Reg
  quote : ℕ → List ℕ

/-- One iteration of the enclave main loop (`src/enclave/src/lib.rs:55-85`):
pattern-match on the (possibly failed) read from the host and produce the
new registered-key list together with the messages written to the host. -/
def enclaveStep (H : HostIface) (regs : List (Reg × IndexSet))
    (msg : Except String MsgFromHost) :
    List (Reg × IndexSet) × List MsgToHost :=
  match msg with
  | .error e => (regs, [.Error e])
  | .ok (.RegisterKey nonce pk) =>
    match H.regOutcome nonce pk with
    | some key =>
      (regs ++ [(key, IndexSet.fromU64 (key.birthday.getD 1))], [.KeyRegSuccess])
    | none => (regs, [])
  | .ok (.RequestReport userData) => (regs, [.Report (H.quote userData)])
  | .ok .RequiredBlocks =>
    (regs, [.BlockRequests (regs.map fun e => e.2.syncedTo + 1)])
  | .ok (.RequestedFlags syncedTo flags) =>
    let out := checkFlags H.C regs syncedTo flags H.rng
    (out.1, [out.2])
  | .ok .other => (regs, [])

/-- Iterate the FMD tick `n` times against the same horizon `syncedTo`,
with per-tick flag inputs and RNG streams. -/
def runTicks (C : EnclaveOracles) (syncedTo : ℕ)
    (flagsSeq : ℕ → List (Index × Option ℕ)) (rngSeq : ℕ → ℕ → ℕ) :
    ℕ → List (Reg × IndexSet) → List (Reg × IndexSet)
  | 0, regs => regs
  | n + 1, regs =>
    runTicks C syncedTo flagsSeq rngSeq n
      (checkFlags C regs syncedTo (flagsSeq n) (rngSeq n)).1

/-! ## Fetched-range tracking (`src/host/src/db/utils.rs`) -/

/-- The `FetchedRanges` is a flat sorted sequence `[l0, r0, l1, r1, ...]` of
interval endpoints; block heights (`u64` in the source) are naturals. -/
abbrev FetchedRanges := List ℕ

/-- The `FetchedRanges::contains` (`utils.rs:139-141`): chunk the flat list into
pairs and test membership.  (On an odd-length list the source would panic on
the trailing singleton chunk; such lists never arise, and here the trailing
element is ignored.) -/
def frContains : FetchedRanges → ℕ → Bool
  | a :: b :: rest, h => (a ≤ h && h ≤ b) || frContains rest h
  | _, _ => false

/-- The `FetchedRanges::first` (`utils.rs:130-136`): `1` when empty, otherwise
the end of the first interval plus one.  (A length-one list, on which the
source would panic indexing `self.0[1]`, yields `1` here; no such list is
reachable.) -/
def frFirst : FetchedRanges → ℕ
  | _ :: b :: _ => b + 1
  | _ => 1

/-- The `FetchedRanges::find_index` (`utils.rs:185-192`): index of the first
element strictly greater than `h`, or the length. -/
def frFindIndex (s : FetchedRanges) (h : ℕ) : ℕ :=
  s.findIdx fun x => h < x

/-- The interval-boundary pass of `FetchedRanges::simplify`
(`utils.rs:169-180`): each pair `(b, c)` is a boundary
`(self.0[ix-1], self.0[ix])` for an even `ix ≥ 2`; adjacent or overlapping
boundaries (`b = c - 1` or `b = c`) are dropped. -/
def simpPairs : List ℕ → List ℕ
  | b :: c :: rest =>
    if b = c - 1 || b = c then simpPairs rest else b :: c :: simpPairs rest
  | _ => []

/-- The `FetchedRanges::simplify` (`utils.rs:163-183`): keep the first element,
filter the interior boundaries, and append the last element. -/
def frSimplify : FetchedRanges → FetchedRanges
  | [] => []
  | a :: rest => a :: (simpPairs rest ++ [rest.getLastD a])

/-- The list `FetchedRanges::insert` builds before calling `simplify`
(`utils.rs:150-159`): drop the endpoints covered by `[f, t]`, splice in `t`
(unless `t` was already covered) and `f` (when the insertion point is even,
i.e. outside every remaining interval). -/
def frInsertPre (s : FetchedRanges) (f t : ℕ) : FetchedRanges :=
  let containsTo := frContains s t
  let s1 := s.filter fun x => x < f || t < x
  let fromIx := frFindIndex s1 f
  let s2 := if !containsTo then s1.insertIdx fromIx t else s1
  if fromIx % 2 = 0 then s2.insertIdx fromIx f else s2

/-- The `FetchedRanges::insert` (`utils.rs:144-161`): push `[f, t]` directly
into an empty set, otherwise splice the new endpoints in and simplify. -/
def frInsert (s : FetchedRanges) (f t : ℕ) : FetchedRanges :=
  if s.isEmpty then [f, t]
  else frSimplify (frInsertPre s f t)

/-- The well-formedness invariant of a fetched-range list: even length,
`l ≤ r` within every pair, and a gap of at least two between consecutive
intervals (`r + 1 < l'`), so that adjacent or overlapping intervals are
always merged. -/
def frWf : FetchedRanges → Bool
  | [] => true
  | [_] => false
  | a :: b :: rest =>
    a ≤ b && (match rest with
      | [] => true
      | c :: _ => b + 1 < c) && frWf rest

/-- The scanning loop of `FetchedRanges::blocks_left_to_fetch`
(`utils.rs:206-231`): walk the heights in order, tracking the current gap
start `cf` and whether a gap is open (`need`); close a gap when hitting a
cached height, open one when hitting an uncached height, and flush the open
gap at the end. -/
def bltfGo (S : FetchedRanges) (t : ℕ) :
    List ℕ → ℕ → Bool → List (ℕ × ℕ)
  | [], cf, need => if need then [(cf, t)] else []
  | h :: hs, cf, true =>
    if frContains S h then
      (if cf < h then [(cf, h - 1)] else []) ++ bltfGo S t hs cf false
    else bltfGo S t hs cf true
  | h :: hs, cf, false =>
    if frContains S h then bltfGo S t hs cf false
    else bltfGo S t hs h true

/-- The `FetchedRanges::blocks_left_to_fetch` (`utils.rs:195-232`): the
sub-intervals of `[f, t]` not contained in `S`.  (For `f > t` or a zero
endpoint the source panics; the theorems below assume `1 ≤ f ≤ t`.) -/
def blocksLeftToFetch (S : FetchedRanges) (f t : ℕ) : List (ℕ × ℕ) :=
  bltfGo S t (List.range' f (t + 1 - f)) f true

/-- A height is covered by one of the returned sub-intervals. -/
def memI (R : List (ℕ × ℕ)) (h : ℕ) : Prop :=
  ∃ p ∈ R, p.1 ≤ h ∧ h ≤ p.2

/-! ## Host store writes and flag parsing
(`src/host/src/db/fetch.rs`, `src/host/src/db.rs`) -/

/-- The `IndexedTx` (from the `namada` crate): the block height and intra-block
index under which a MASP tx is stored. -/
structure IndexedTx where
  blockHeight : ℕ
  blockIndex : ℕ
deriving DecidableEq, Repr

/-- A row of the `Txs` table: the Borsh-serialised `IndexedTx` (kept here as
the value itself, as serialisation round-trips), the height column, the tx
data (opaque) and the flag column. -/
structure TxRow where
  itx : IndexedTx
  data : ℕ
  flag : String
deriving DecidableEq, Repr

/-- The row written for a fetched entry by both `DbConn::extend`
(`fetch.rs:93-102`) and `Drop for DbConn` (`fetch.rs:116-126`): the flag
column is always the empty string (see the `TODO: Add fmd flag` in the
source). -/
def rowOf (e : IndexedTx × ℕ) : TxRow :=
  ⟨e.1, e.2, ""⟩

/-- The buffered DB connection `DbConn` (`fetch.rs:74-78`): a write-ahead
list and the rows flushed to the `Txs` table. -/
structure DbConnM where
  wal : List (IndexedTx × ℕ)
  table : List TxRow
  maxWalSize : ℕ
deriving Repr

/-- The `DbConn::extend` (`fetch.rs:80-104`): buffer the items; once the WAL
reaches the limit, flush every buffered entry as a `Txs` row. -/
def DbConnM.extend (c : DbConnM) (items : List (IndexedTx × ℕ)) : DbConnM :=
  let wal' := c.wal ++ items
  if c.maxWalSize ≤ wal'.length then
    ⟨[], c.table ++ wal'.map rowOf, c.maxWalSize⟩
  else
    ⟨wal', c.table, c.maxWalSize⟩

/-- The `Drop for DbConn` (`fetch.rs:107-127`): on shutdown finalisation the
remaining WAL entries are flushed. -/
def DbConnM.finalize (c : DbConnM) : DbConnM :=
  ⟨[], c.table ++ c.wal.map rowOf, c.maxWalSize⟩

/-- Run a sequence of `extend` batches followed by the shutdown flush. -/
def runFetchWrites (batches : List (List (IndexedTx × ℕ))) (maxWalSize : ℕ) :
    DbConnM :=
  (batches.foldl DbConnM.extend ⟨[], [], maxWalSize⟩).finalize

/-- The `DB::get_height` (`src/host/src/db.rs:107-142`): select the rows at the
requested height, rebuild each `Index` from the stored `IndexedTx`, and
parse the flag column with the supplied JSON parser (`serde_json::from_str`
into `FlagCiphertexts`), mapping a parse failure to `none`. -/
def getHeight (parseFlag : String → Option ℕ) (table : List TxRow) (h : ℕ) :
    List (Index × Option ℕ) :=
  (table.filter fun r => r.itx.blockHeight == h).map fun r =>
    (⟨r.itx.blockHeight, r.itx.blockIndex⟩, parseFlag r.flag)

/-! ## Index-list combination (`src/shared/src/db.rs:151-184`) -/

/-- The comparison `Ord for Index` derives in the source: lexicographic on
`(height, tx)`. -/
def leIx (a b : Index) : Prop :=
  a.height < b.height ∨ (a.height = b.height ∧ a.tx ≤ b.tx)

instance : DecidableRel leIx := fun a b => by
  unfold leIx; infer_instance

instance : IsTotal Index leIx where
  total a b := by
    unfold leIx
    rcases Nat.lt_trichotomy a.height b.height with h | h | h
    · exact Or.inl (Or.inl h)
    · rcases Nat.le_total a.tx b.tx with h' | h'
      · exact Or.inl (Or.inr ⟨h, h'⟩)
      · exact Or.inr (Or.inr ⟨h.symm, h'⟩)
    · exact Or.inr (Or.inl h)

instance : IsTrans Index leIx where
  trans a b c hab hbc := by
    unfold leIx at *
    rcases hab with h | ⟨h, h'⟩ <;> rcases hbc with g | ⟨g, g'⟩
    · exact Or.inl (h.trans g)
    · exact Or.inl (g ▸ h)
    · exact Or.inl (h ▸ g)
    · exact Or.inr ⟨h.trans g, h'.trans g'⟩

/-- The `Vec::sort` on an index list (stable sort by the derived order). -/
def sortIL (l : List Index) : List Index :=
  l.insertionSort leIx

/-- The height of the last element of the sorted list, `0` when empty:
`self.0.last().map(|ix| ix.height).unwrap_or_default()` after `sort`
(`db.rs:168-169`). -/
def lastHeight (l : List Index) : ℕ :=
  ((sortIL l).getLastD ⟨0, 0⟩).height

/-- The `IndexList::combine` (`src/shared/src/db.rs:158-184`).  An empty side
returns the other unchanged; otherwise both are sorted, the further-synced
list (after the conditional swap) is retained down to the entries lying
above the lower maximum height or contained in the other list.  The
source's `other.contains(ix)` is a binary search on the sorted list, which
succeeds exactly on membership; it is modelled as list membership. -/
def combine (a b : List Index) : List Index :=
  if a.isEmpty then b
  else if b.isEmpty then a
  else if lastHeight a < lastHeight b then
    (sortIL b).filter fun ix =>
      lastHeight a < ix.height || decide (ix ∈ sortIL a)
  else
    (sortIL a).filter fun ix =>
      lastHeight b < ix.height || decide (ix ∈ sortIL b)

/-! ## Specification functions and concrete instances used by witnesses -/

/-- The sequence of encrypted responses one tick produces, by the amended
specification: one response per eligible key, in registration order, whose
owner is the hash of the key's `enc_key`, whose nonce is the next fresh RNG
draw, whose payload is the encryption of the updated index list, and whose
`height` field is the key's `synced_to` value at the start of its
processing (one less than the height just scanned). -/
def tickResponses (C : EnclaveOracles) (syncedTo : ℕ)
    (flags : List (Index × Option ℕ)) (rng : ℕ → ℕ) :
    List (Reg × IndexSet) → ℕ → List EncResp
  | [], _ => []
  | (key, ixs) :: rest, i =>
    if ixs.syncedTo < syncedTo then
      ⟨C.hash key.encKey, rng i,
        (C.encrypt key.encKey (rng i)
            (indexBytes (scanFlags C key flags ixs.syncedTo ixs.indices))).toOption.getD [],
        ixs.syncedTo⟩ ::
        tickResponses C syncedTo flags rng rest (i + 1)
    else tickResponses C syncedTo flags rng rest i

/-- A concrete oracle set whose encryption always succeeds (the ciphertext
is the plaintext) — used to evaluate the model at concrete inputs. -/
def Cok : EnclaveOracles :=
  ⟨fun _ _ => true, fun _ _ m => .ok m, fun k => toString k⟩

/-- A concrete oracle set whose encryption always fails. -/
def Cbad : EnclaveOracles :=
  ⟨fun _ _ => true, fun _ _ _ => .error "enc", fun k => toString k⟩

/-- A concrete RNG stream. -/
def rngW (i : ℕ) : ℕ :=
  i + 100

/-- A concrete enclave environment whose handshake always succeeds with a
registration built from the client nonce and public key. -/
def Hw : HostIface :=
  ⟨Cok, rngW, fun nonce pk => some ⟨nonce, pk, none⟩, fun _ => []⟩

/-! ## Lemmas about the FMD tick -/

/-- The state component of the tick is the entrywise `tickEntry` map; it
does not depend on the response accumulator or the nonce counter. -/
theorem checkFlagsGo_fst (C : EnclaveOracles) (k : ℕ)
    (flags : List (Index × Option ℕ)) (rng : ℕ → ℕ) :
    ∀ (regs : List (Reg × IndexSet)) (resp : MsgToHost) (i : ℕ),
      (checkFlagsGo C k flags rng regs resp i).1 =
        regs.map (tickEntry C k flags) := by
  intro regs
  induction regs with
  | nil => intro resp i; rfl
  | cons e rest ih =>
    intro resp i
    obtain ⟨key, ixs⟩ := e
    by_cases h : ixs.syncedTo < k <;>
      simp [checkFlagsGo, h, tickEntry, ih]

/-- An error response is absorbing: once the accumulator is an `Error`,
the final response of the tick is an `Error`. -/
theorem checkFlagsGo_error (C : EnclaveOracles) (k : ℕ)
    (flags : List (Index × Option ℕ)) (rng : ℕ → ℕ) :
    ∀ (regs : List (Reg × IndexSet)) (s : String) (i : ℕ),
      ∃ s2, (checkFlagsGo C k flags rng regs (.Error s) i).2 = .Error s2 := by
  intro regs
  induction regs with
  | nil => intro s i; exact ⟨s, rfl⟩
  | cons e rest ih =>
    intro s i
    obtain ⟨key, ixs⟩ := e
    by_cases h : ixs.syncedTo < k
    · simp only [checkFlagsGo, h, if_true]
      rcases hE : C.encrypt key.encKey (rng i)
          (indexBytes (scanFlags C key flags ixs.syncedTo ixs.indices)) with e' | ct <;>
        simp [addResult, hE, ih]
    · simp only [checkFlagsGo, h, if_false]
      exact ih s i

/-- When the tick's final response is a result list, it is the accumulator
followed by the specified per-eligible-key responses. -/
theorem checkFlagsGo_results (C : EnclaveOracles) (k : ℕ)
    (flags : List (Index × Option ℕ)) (rng : ℕ → ℕ) :
    ∀ (regs : List (Reg × IndexSet)) (acc : List EncResp) (i : ℕ)
      (rs : List EncResp),
      (checkFlagsGo C k flags rng regs (.FmdResults acc) i).2 = .FmdResults rs →
      rs = acc ++ tickResponses C k flags rng regs i := by
  intro regs
  induction regs with
  | nil =>
    intro acc i rs h
    simp only [checkFlagsGo] at h
    cases h
    simp [tickResponses]
  | cons e rest ih =>
    intro acc i rs h
    obtain ⟨key, ixs⟩ := e
    by_cases hel : ixs.syncedTo < k
    · simp only [checkFlagsGo, hel, if_true] at h
      rcases hE : C.encrypt key.encKey (rng i)
          (indexBytes (scanFlags C key flags ixs.syncedTo ixs.indices)) with e' | ct
      · rw [show addResult C ⟨ixs.syncedTo, scanFlags C key flags ixs.syncedTo ixs.indices⟩
              key.encKey (rng i) (.FmdResults acc) = .Error e' by
            simp [addResult, hE]] at h
        obtain ⟨s2, h2⟩ := checkFlagsGo_error C k flags rng rest e' (i + 1)
        rw [h2] at h
        cases h
      · rw [show addResult C ⟨ixs.syncedTo, scanFlags C key flags ixs.syncedTo ixs.indices⟩
              key.encKey (rng i) (.FmdResults acc) =
            .FmdResults (acc ++ [⟨C.hash key.encKey, rng i, ct, ixs.syncedTo⟩]) by
            simp [addResult, hE]] at h
        have := ih (acc ++ [⟨C.hash key.encKey, rng i, ct, ixs.syncedTo⟩]) (i + 1) rs h
        simp only [tickResponses, hel, if_true, hE]
        simpa [List.append_assoc] using this
    · simp only [checkFlagsGo, hel, if_false] at h
      simpa [tickResponses, hel] using ih acc i rs h

/-- The `scanFlags` does not depend on the encryption or hashing oracles. -/
theorem scanFlags_detect_congr (C C' : EnclaveOracles)
    (hd : C.detect = C'.detect) (key : Reg) (flags : List (Index × Option ℕ))
    (s : ℕ) (acc : List Index) :
    scanFlags C key flags s acc = scanFlags C' key flags s acc := by
  unfold scanFlags
  congr 1
  funext acc p
  rcases p with ⟨ix, f⟩
  rcases f with _ | f <;> simp [matchesFlag, hd]

/-- When every flag in the list sits at the scanned height and carries no
ciphertext, all of them are appended. -/
theorem scanFlags_all_none (C : EnclaveOracles) (key : Reg)
    (flags : List (Index × Option ℕ)) (s : ℕ) (acc : List Index)
    (hh : ∀ p ∈ flags, p.1.height = s + 1) (hn : ∀ p ∈ flags, p.2 = none) :
    scanFlags C key flags s acc = acc ++ flags.map Prod.fst := by
  unfold scanFlags
  rw [List.filter_eq_self.2 (by intro p hp; simpa using hh p hp)]
  induction flags generalizing acc with
  | nil => simp
  | cons p rest ih =>
    have hp2 : p.2 = none := hn p (by simp)
    simp only [List.foldl_cons, hp2]
    rw [if_pos (show matchesFlag C key none = true from rfl)]
    rw [ih (acc ++ [p.1]) (fun q hq => hh q (List.mem_cons_of_mem _ hq))
      (fun q hq => hn q (List.mem_cons_of_mem _ hq))]
    simp

/-- If the encryption oracle always fails and some key is eligible, the
tick's final response is an error. -/
theorem checkFlagsGo_allfail (C : EnclaveOracles) (k : ℕ)
    (flags : List (Index × Option ℕ)) (rng : ℕ → ℕ)
    (hE : ∀ ek n m, ∃ e, C.encrypt ek n m = .error e) :
    ∀ (regs : List (Reg × IndexSet)) (acc : List EncResp) (i : ℕ),
      (∃ p ∈ regs, p.2.syncedTo < k) →
      ∃ s, (checkFlagsGo C k flags rng regs (.FmdResults acc) i).2 = .Error s := by
  intro regs
  induction regs with
  | nil =>
    intro acc i h
    rcases h with ⟨p, hp, _⟩
    cases hp
  | cons e rest ih =>
    intro acc i hex
    obtain ⟨key, ixs⟩ := e
    by_cases hel : ixs.syncedTo < k
    · simp only [checkFlagsGo, hel, if_true]
      obtain ⟨er, hEr⟩ := hE key.encKey (rng i)
        (indexBytes (scanFlags C key flags ixs.syncedTo ixs.indices))
      rw [show addResult C ⟨ixs.syncedTo, scanFlags C key flags ixs.syncedTo ixs.indices⟩
            key.encKey (rng i) (.FmdResults acc) = .Error er by
          simp [addResult, hEr]]
      exact checkFlagsGo_error C k flags rng rest er (i + 1)
    · simp only [checkFlagsGo, hel, if_false]
      rcases hex with ⟨p, hp, hps⟩
      rcases List.mem_cons.1 hp with heq | hmem
      · rw [heq] at hps
        exact absurd hps hel
      · exact ih acc i ⟨p, hmem, hps⟩

/-! ## Claims C1, C2, C4, C10 -/

/-- C1 (counterexample): with an always-failing encryption oracle, one
registered key at `synced_to = 1` and horizon `2`, the tick replies with an
`Error` — but the key's cursor is advanced from 1 to 2, refuting the
claim's "no eligible key's synced_to cursor is advanced (the registered-key
state is unchanged on error)". -/
theorem claim_C1_counterexample :
    (checkFlags Cbad [(⟨1, 2, none⟩, ⟨1, []⟩)] 2 [] rngW).2 = .Error "enc" ∧
    (checkFlags Cbad [(⟨1, 2, none⟩, ⟨1, []⟩)] 2 [] rngW).1 =
      [(⟨1, 2, none⟩, ⟨2, []⟩)] ∧
    (checkFlags Cbad [(⟨1, 2, none⟩, ⟨1, []⟩)] 2 [] rngW).1 ≠
      [(⟨1, 2, none⟩, ⟨1, []⟩)] := by
  refine ⟨rfl, rfl, by decide⟩

/-- C1 (amended): if the ChaCha20-Poly1305 encryption fails during an FMD
tick, the enclave's reply is an `Error` message in place of the results for
that tick; the registered-key state, however, is updated exactly as on
success — it does not depend on the encryption oracle at all, so every
eligible key's cursor is still advanced. -/
theorem claim_C1_amended :
    (∀ C C' : EnclaveOracles, C.detect = C'.detect →
      ∀ regs k flags rng,
        (checkFlags C regs k flags rng).1 = (checkFlags C' regs k flags rng).1) ∧
    (∀ (C : EnclaveOracles) regs k flags rng,
      (∀ ek n m, ∃ e, C.encrypt ek n m = .error e) →
      (∃ p ∈ regs, p.2.syncedTo < k) →
      ∃ s, (checkFlags C regs k flags rng).2 = .Error s) := by
  constructor
  · intro C C' hd regs k flags rng
    rw [checkFlags, checkFlags, checkFlagsGo_fst, checkFlagsGo_fst]
    have h : tickEntry C k flags = tickEntry C' k flags := by
      funext e
      unfold tickEntry
      by_cases h : e.2.syncedTo < k <;>
        simp [h, scanFlags_detect_congr C C' hd]
    rw [h]
  · intro C regs k flags rng hE hex
    exact checkFlagsGo_allfail C k flags rng hE regs [] 0 hex

/-- C1 (witness): the amended statement evaluated at a concrete input. -/
theorem claim_C1_witness :
    (checkFlags Cbad [(⟨1, 2, none⟩, ⟨1, []⟩)] 2 [] rngW).1 =
      (checkFlags Cok [(⟨1, 2, none⟩, ⟨1, []⟩)] 2 [] rngW).1 ∧
    ∃ s, (checkFlags Cbad [(⟨1, 2, none⟩, ⟨1, []⟩)] 2 [] rngW).2 = .Error s :=
  ⟨claim_C1_amended.1 Cbad Cok rfl _ 2 [] rngW,
   claim_C1_amended.2 Cbad _ 2 [] rngW (fun _ _ _ => ⟨"enc", rfl⟩)
     ⟨(⟨1, 2, none⟩, ⟨1, []⟩), by decide, by decide⟩⟩

/-- C2 (counterexample): with a key at `synced_to = 1`, horizon `2` and no
flags, the appended `EncryptedResponse` carries `height = 1` — the key's
`synced_to` at the start of its processing — and not `synced_to + 1 = 2` as
claimed. -/
theorem claim_C2_counterexample :
    (checkFlags Cok [(⟨1, 2, none⟩, ⟨1, []⟩)] 2 [] rngW).2 =
      .FmdResults [⟨"2", 100, [], 1⟩] ∧ (1 : ℕ) ≠ 1 + 1 :=
  ⟨rfl, by decide⟩

/-- C2 (amended): whenever a tick's reply is a result list, it consists of
exactly one `EncryptedResponse` per eligible registered key, in order, with
`owner` the hash of the key's `enc_key`, `nonce` the next fresh draw from
the enclave CSPRNG, `indices` the ChaCha20-Poly1305 encryption of the
updated 12-byte-record index concatenation, and `height` equal to the key's
`synced_to` value at the start of its processing (one less than the height
just scanned). -/
theorem claim_C2_amended (C : EnclaveOracles) (regs : List (Reg × IndexSet))
    (k : ℕ) (flags : List (Index × Option ℕ)) (rng : ℕ → ℕ)
    (rs : List EncResp)
    (h : (checkFlags C regs k flags rng).2 = .FmdResults rs) :
    rs = tickResponses C k flags rng regs 0 := by
  simpa using checkFlagsGo_results C k flags rng regs [] 0 rs h

/-- C2 (witness): the amended statement evaluated at a concrete input. -/
theorem claim_C2_witness :
    [(⟨"2", 100, [], 1⟩ : EncResp)] =
      tickResponses Cok 2 [] rngW [(⟨1, 2, none⟩, ⟨1, []⟩)] 0 :=
  claim_C2_amended Cok [(⟨1, 2, none⟩, ⟨1, []⟩)] 2 [] rngW _ rfl

/-- C4: one call to `check_flags` with horizon `k` advances the cursor of
every registered key below `k` by exactly one and leaves every other key's
cursor unchanged, regardless of the supplied flags; consequently, after `n`
ticks against the same horizon `k`, every key's cursor has increased by
exactly `min n (k - initial)`. -/
theorem claim_C4 :
    (∀ (C : EnclaveOracles) (regs : List (Reg × IndexSet)) (k : ℕ)
        (flags : List (Index × Option ℕ)) (rng : ℕ → ℕ),
      (checkFlags C regs k flags rng).1.map (fun e => (e.1, e.2.syncedTo)) =
        regs.map fun e =>
          (e.1, if e.2.syncedTo < k then e.2.syncedTo + 1 else e.2.syncedTo)) ∧
    (∀ (C : EnclaveOracles) (k : ℕ) (flagsSeq : ℕ → List (Index × Option ℕ))
        (rngSeq : ℕ → ℕ → ℕ) (n : ℕ) (regs : List (Reg × IndexSet)),
      (runTicks C k flagsSeq rngSeq n regs).map (fun e => e.2.syncedTo) =
        regs.map fun e => e.2.syncedTo + min n (k - e.2.syncedTo)) := by
  have h1 : ∀ (C : EnclaveOracles) (regs : List (Reg × IndexSet)) (k : ℕ)
      (flags : List (Index × Option ℕ)) (rng : ℕ → ℕ),
      (checkFlags C regs k flags rng).1 = regs.map (tickEntry C k flags) :=
    fun C regs k flags rng => checkFlagsGo_fst C k flags rng regs _ 0
  constructor
  · intro C regs k flags rng
    rw [h1, List.map_map]
    refine List.map_congr_left fun e _ => ?_
    unfold tickEntry
    by_cases h : e.2.syncedTo < k <;> simp [h]
  · intro C k flagsSeq rngSeq n
    induction n with
    | zero => intro regs; simp [runTicks]
    | succ n ih =>
      intro regs
      rw [runTicks, ih, h1, List.map_map]
      refine List.map_congr_left fun e _ => ?_
      unfold tickEntry
      by_cases h : e.2.syncedTo < k <;> simp [h] <;> omega

/-- C10: a successful key-registration handshake appends exactly one
`(registration, IndexSet{synced_to = birthday.unwrap_or(1), indices = []})`
pair at the end of the registered-key list and emits `KeyRegSuccess`; on
failure no entry is added; and no enclave main-loop step ever removes or
reorders existing entries (the old key sequence stays an initial segment of
the new one). -/
theorem claim_C10 :
    (∀ (H : HostIface) regs nonce pk key,
      H.regOutcome nonce pk = some key →
      enclaveStep H regs (.ok (.RegisterKey nonce pk)) =
        (regs ++ [(key, IndexSet.fromU64 (key.birthday.getD 1))],
          [.KeyRegSuccess])) ∧
    (∀ (H : HostIface) regs nonce pk,
      H.regOutcome nonce pk = none →
      (enclaveStep H regs (.ok (.RegisterKey nonce pk))).1 = regs) ∧
    (∀ (H : HostIface) (regs : List (Reg × IndexSet))
        (msg : Except String MsgFromHost),
      ∃ tail, (enclaveStep H regs msg).1.map Prod.fst =
        regs.map Prod.fst ++ tail) := by
  refine ⟨?_, ?_, ?_⟩
  · intro H regs nonce pk key h
    simp [enclaveStep, h]
  · intro H regs nonce pk h
    simp [enclaveStep, h]
  · intro H regs msg
    rcases msg with e | m
    · exact ⟨[], by simp [enclaveStep]⟩
    · rcases m with ⟨nonce, pk⟩ | ud | _ | ⟨k, flags⟩ | _
      · rcases h : H.regOutcome nonce pk with _ | key
        · exact ⟨[], by simp [enclaveStep, h]⟩
        · exact ⟨[key], by simp [enclaveStep, h]⟩
      · exact ⟨[], by simp [enclaveStep]⟩
      · exact ⟨[], by simp [enclaveStep]⟩
      · refine ⟨[], ?_⟩
        simp only [enclaveStep, checkFlags, checkFlagsGo_fst, List.map_map,
          List.append_nil]
        refine List.map_congr_left fun e _ => ?_
        unfold tickEntry
        by_cases h : e.2.syncedTo < k <;> simp [h]
      · exact ⟨[], by simp [enclaveStep]⟩

/-- C10 (witness): the successful-registration case at a concrete input. -/
theorem claim_C10_witness :
    enclaveStep Hw [] (.ok (.RegisterKey 7 9)) =
      ([(⟨7, 9, none⟩, ⟨1, []⟩)], [.KeyRegSuccess]) := by
  have h := claim_C10.1 Hw [] 7 9 ⟨7, 9, none⟩ rfl
  simpa [IndexSet.fromU64] using h

/-! ## Lemmas about the fetch-pipeline rows and claim C3 -/

/-- The `DbConn::extend` preserves "every `Txs` row has an empty flag". -/
theorem DbConnM_extend_flag (c : DbConnM) (items : List (IndexedTx × ℕ))
    (hc : ∀ r ∈ c.table, r.flag = "") :
    ∀ r ∈ (c.extend items).table, r.flag = "" := by
  intro r hr
  unfold DbConnM.extend at hr
  by_cases h : c.maxWalSize ≤ (c.wal ++ items).length
  · simp only [h, if_true] at hr
    rcases List.mem_append.1 hr with h1 | h2
    · exact hc r h1
    · rcases List.mem_map.1 h2 with ⟨e, _, he⟩
      rw [← he]; rfl
  · simp only [h, if_false] at hr
    exact hc r hr

/-- Every row the fetch pipeline ever writes (over any sequence of `extend`
batches followed by the shutdown flush) has an empty flag column. -/
theorem runFetchWrites_flag (batches : List (List (IndexedTx × ℕ))) (W : ℕ) :
    ∀ r ∈ (runFetchWrites batches W).table, r.flag = "" := by
  have main : ∀ (bs : List (List (IndexedTx × ℕ))) (c : DbConnM),
      (∀ r ∈ c.table, r.flag = "") →
      ∀ r ∈ (bs.foldl DbConnM.extend c).table, r.flag = "" := by
    intro bs
    induction bs with
    | nil => intro c hc; exact hc
    | cons b rest ih =>
      intro c hc
      exact ih _ (DbConnM_extend_flag c b hc)
  intro r hr
  unfold runFetchWrites DbConnM.finalize at hr
  simp only at hr
  rcases List.mem_append.1 hr with h1 | h2
  · exact main batches _ (by intro r h; cases h) r h1
  · rcases List.mem_map.1 h2 with ⟨e, _, he⟩
    rw [← he]; rfl

/-- Every entry `get_height` returns from an all-empty-flag table sits at
the requested height and carries the parse of the empty string. -/
theorem getHeight_mem (parseFlag : String → Option ℕ) (table : List TxRow)
    (h : ℕ) (hT : ∀ r ∈ table, r.flag = "") :
    ∀ p ∈ getHeight parseFlag table h, p.1.height = h ∧ p.2 = parseFlag "" := by
  intro p hp
  unfold getHeight at hp
  rcases List.mem_map.1 hp with ⟨r, hr, he⟩
  have hrf := List.mem_filter.1 hr
  constructor
  · rw [← he]
    simpa using hrf.2
  · rw [← he, hT r hrf.1]

/-- C3: every row the fetch pipeline writes into the `Txs` store (on WAL
flush and on shutdown finalisation alike) has an empty string in its flag
column; `get_height` fails to parse the empty string as a
`FlagCiphertexts` (the hypothesis `parseFlag "" = none` records that
`serde_json` rejects empty input) and returns `none` for the flag; a
`none` flag matches unconditionally in a tick — hence, for a key that the
tick processes at exactly that height, every persisted transaction at the
height is appended to the key's index list. -/
theorem claim_C3 (parseFlag : String → Option ℕ) (hP : parseFlag "" = none) :
    (∀ (batches : List (List (IndexedTx × ℕ))) (W : ℕ),
      ∀ r ∈ (runFetchWrites batches W).table, r.flag = "") ∧
    (∀ (table : List TxRow) (h : ℕ), (∀ r ∈ table, r.flag = "") →
      ∀ p ∈ getHeight parseFlag table h, p.2 = none) ∧
    (∀ (C : EnclaveOracles) (regs : List (Reg × IndexSet)) (k : ℕ)
        (rng : ℕ → ℕ) (table : List TxRow) (h : ℕ) (i : ℕ)
        (key : Reg) (ixs : IndexSet),
      (∀ r ∈ table, r.flag = "") →
      regs[i]? = some (key, ixs) →
      ixs.syncedTo < k → ixs.syncedTo + 1 = h →
      (checkFlags C regs k (getHeight parseFlag table h) rng).1[i]? =
        some (key, ⟨ixs.syncedTo + 1,
          ixs.indices ++ (getHeight parseFlag table h).map Prod.fst⟩)) := by
  refine ⟨runFetchWrites_flag, ?_, ?_⟩
  · intro table h hT p hp
    rw [(getHeight_mem parseFlag table h hT p hp).2, hP]
  · intro C regs k rng table h i key ixs hT hg hel hh
    rw [checkFlags, checkFlagsGo_fst, List.getElem?_map, hg]
    simp only [Option.map_some']
    unfold tickEntry
    simp only [hel, if_true]
    rw [scanFlags_all_none C key _ ixs.syncedTo ixs.indices
      (fun p hp => by rw [(getHeight_mem parseFlag table h hT p hp).1, ← hh])
      (fun p hp => by rw [(getHeight_mem parseFlag table h hT p hp).2, hP])]

/-- C3 (witness): the composed statement at a concrete input — a single
fetched row at height 2 and a single registered key at `synced_to = 1`. -/
theorem claim_C3_witness :
    (checkFlags Cok [(⟨1, 2, none⟩, ⟨1, []⟩)] 2
        (getHeight (fun _ => none) [⟨⟨2, 0⟩, 5, ""⟩] 2) rngW).1[0]? =
      some (⟨1, 2, none⟩, ⟨2, [⟨2, 0⟩]⟩) := by
  have h := (claim_C3 (fun _ => none) rfl).2.2 Cok
    [(⟨1, 2, none⟩, ⟨1, []⟩)] 2 rngW [⟨⟨2, 0⟩, 5, ""⟩] 2 0
    ⟨1, 2, none⟩ ⟨1, []⟩ (by decide) rfl (by decide) rfl
  simpa using h

/-! ## Lemmas about blocks_left_to_fetch and claim C6 -/

theorem memI_nil (h : ℕ) : ¬ memI [] h := by
  rintro ⟨p, hp, _⟩
  cases hp

theorem memI_append (A B : List (ℕ × ℕ)) (h : ℕ) :
    memI (A ++ B) h ↔ memI A h ∨ memI B h := by
  constructor
  · rintro ⟨p, hp, h1, h2⟩
    rcases List.mem_append.1 hp with hA | hB
    · exact Or.inl ⟨p, hA, h1, h2⟩
    · exact Or.inr ⟨p, hB, h1, h2⟩
  · rintro (⟨p, hp, h1, h2⟩ | ⟨p, hp, h1, h2⟩)
    · exact ⟨p, List.mem_append.2 (Or.inl hp), h1, h2⟩
    · exact ⟨p, List.mem_append.2 (Or.inr hp), h1, h2⟩

theorem memI_nil_iff (h : ℕ) : memI [] h ↔ False := by
  constructor
  · exact memI_nil h
  · intro hf
    cases hf

theorem memI_single (a b h : ℕ) : memI [(a, b)] h ↔ a ≤ h ∧ h ≤ b := by
  constructor
  · rintro ⟨p, hp, h1, h2⟩
    rcases List.mem_singleton.1 hp with rfl
    exact ⟨h1, h2⟩
  · rintro ⟨h1, h2⟩
    exact ⟨(a, b), List.mem_singleton.2 rfl, h1, h2⟩

/-- Characterization of the heights covered by the scanning loop's output:
starting at position `c` with `n = t + 1 - c` heights left, the returned
intervals cover exactly the uncovered heights of `[cf, t]` (when a gap is
open, all of `[cf, c)` being uncovered) resp. of `[c, t]` (when no gap is
open). -/
theorem bltfGo_memI (S : FetchedRanges) (t : ℕ) :
    ∀ (n c cf : ℕ) (need : Bool), c + n = t + 1 →
      (need = true → cf ≤ c ∧ ∀ x, cf ≤ x → x < c → frContains S x = false) →
      ∀ h, memI (bltfGo S t (List.range' c n) cf need) h ↔
        (cond need cf c ≤ h ∧ h ≤ t ∧ frContains S h = false) := by
  intro n
  induction n with
  | zero =>
    intro c cf need hc hneed h
    cases need with
    | true =>
      obtain ⟨hcf, hgap⟩ := hneed rfl
      show memI [(cf, t)] h ↔ _
      rw [memI_single]
      constructor
      · rintro ⟨h1, h2⟩
        exact ⟨h1, h2, hgap h h1 (by omega)⟩
      · rintro ⟨h1, h2, _⟩
        exact ⟨h1, h2⟩
    | false =>
      show memI [] h ↔ _
      simp only [Bool.cond_false]
      constructor
      · intro hm
        exact absurd hm (memI_nil h)
      · rintro ⟨h1, h2, _⟩
        omega
  | succ n ih =>
    intro c cf need hc hneed h
    rw [List.range'_succ]
    cases need with
    | true =>
      obtain ⟨hcf, hgap⟩ := hneed rfl
      cases hcont : frContains S c with
      | true =>
        rw [show bltfGo S t (c :: List.range' (c + 1) n) cf true =
          (if cf < c then [(cf, c - 1)] else []) ++
            bltfGo S t (List.range' (c + 1) n) cf false by
            simp [bltfGo, hcont]]
        rw [memI_append]
        have hrest := ih (c + 1) cf false (by omega) (by intro hh; cases hh) h
        simp only [Bool.cond_false] at hrest
        by_cases hlt : cf < c
        · rw [if_pos hlt]
          simp only [memI_single, hrest, Bool.cond_true]
          constructor
          · rintro (⟨h1, h2⟩ | ⟨h1, h2, h3⟩)
            · exact ⟨h1, by omega, hgap h h1 (by omega)⟩
            · exact ⟨by omega, h2, h3⟩
          · rintro ⟨h1, h2, h3⟩
            rcases Nat.lt_trichotomy h c with hl | he | hg
            · exact Or.inl ⟨h1, by omega⟩
            · exfalso
              rw [he, hcont] at h3
              cases h3
            · exact Or.inr ⟨by omega, h2, h3⟩
        · have hcfc : cf = c := by omega
          rw [if_neg hlt]
          simp only [List.nil_append, memI_nil_iff, false_or, hrest,
            Bool.cond_true]
          constructor
          · rintro ⟨h1, h2, h3⟩
            exact ⟨by omega, h2, h3⟩
          · rintro ⟨h1, h2, h3⟩
            rcases eq_or_lt_of_le h1 with he | hg
            · exfalso
              rw [← he, hcfc] at h3
              rw [h3] at hcont
              cases hcont
            · exact ⟨by omega, h2, h3⟩
      | false =>
        have hyp : true = true → cf ≤ c + 1 ∧
            ∀ x, cf ≤ x → x < c + 1 → frContains S x = false := by
          intro
          refine ⟨by omega, fun x hx1 hx2 => ?_⟩
          rcases Nat.lt_or_ge x c with hl | hg
          · exact hgap x hx1 hl
          · have hx : x = c := by omega
            rw [hx, hcont]
        rw [show bltfGo S t (c :: List.range' (c + 1) n) cf true =
          bltfGo S t (List.range' (c + 1) n) cf true by
            simp [bltfGo, hcont]]
        rw [ih (c + 1) cf true (by omega) hyp h]
        exact Iff.rfl
    | false =>
      cases hcont : frContains S c with
      | true =>
        rw [show bltfGo S t (c :: List.range' (c + 1) n) cf false =
          bltfGo S t (List.range' (c + 1) n) cf false by
            simp [bltfGo, hcont]]
        rw [ih (c + 1) cf false (by omega) (by intro hh; cases hh) h]
        simp only [Bool.cond_false]
        constructor
        · rintro ⟨h1, h2, h3⟩
          exact ⟨by omega, h2, h3⟩
        · rintro ⟨h1, h2, h3⟩
          rcases eq_or_lt_of_le h1 with he | hg
          · exfalso
            rw [← he] at h3
            rw [h3] at hcont
            cases hcont
          · exact ⟨by omega, h2, h3⟩
      | false =>
        have hyp : true = true → c ≤ c + 1 ∧
            ∀ x, c ≤ x → x < c + 1 → frContains S x = false := by
          intro
          refine ⟨by omega, fun x hx1 hx2 => ?_⟩
          have hx : x = c := by omega
          rw [hx, hcont]
        rw [show bltfGo S t (c :: List.range' (c + 1) n) cf false =
          bltfGo S t (List.range' (c + 1) n) c true by
            simp [bltfGo, hcont]]
        rw [ih (c + 1) c true (by omega) hyp h]
        exact Iff.rfl

/-- The returned intervals are well-formed, lie within the scanned range,
and are strictly ordered with gaps. -/
theorem bltfGo_bounds (S : FetchedRanges) (t : ℕ) :
    ∀ (n c cf : ℕ) (need : Bool), c + n = t + 1 →
      (need = true → cf ≤ c ∧ cf ≤ t) →
      (∀ p ∈ bltfGo S t (List.range' c n) cf need,
        cond need cf c ≤ p.1 ∧ p.1 ≤ p.2 ∧ p.2 ≤ t) ∧
      List.Chain' (fun p q : ℕ × ℕ => p.2 < q.1)
        (bltfGo S t (List.range' c n) cf need) := by
  intro n
  induction n with
  | zero =>
    intro c cf need hc hneed
    cases need with
    | true =>
      obtain ⟨hcf, hct⟩ := hneed rfl
      constructor
      · intro p hp
        rcases List.mem_singleton.1 hp with rfl
        exact ⟨le_refl cf, hct, le_refl t⟩
      · exact List.chain'_singleton _
    | false =>
      constructor
      · intro p hp
        cases hp
      · exact List.chain'_nil
  | succ n ih =>
    intro c cf need hc hneed
    rw [List.range'_succ]
    cases need with
    | true =>
      obtain ⟨hcf, hct⟩ := hneed rfl
      cases hcont : frContains S c with
      | true =>
        rw [show bltfGo S t (c :: List.range' (c + 1) n) cf true =
          (if cf < c then [(cf, c - 1)] else []) ++
            bltfGo S t (List.range' (c + 1) n) cf false by
            simp [bltfGo, hcont]]
        have hrest := ih (c + 1) cf false (by omega) (by intro hh; cases hh)
        by_cases hlt : cf < c
        · rw [if_pos hlt]
          constructor
          · intro p hp
            rcases List.mem_append.1 hp with hf | hr
            · rcases List.mem_singleton.1 hf with rfl
              simp only [Bool.cond_true]
              exact ⟨le_refl cf, by omega, by omega⟩
            · have hb := hrest.1 p hr
              simp only [Bool.cond_false] at hb
              simp only [Bool.cond_true]
              exact ⟨by omega, hb.2.1, hb.2.2⟩
          · rw [List.chain'_append]
            refine ⟨List.chain'_singleton _, hrest.2, ?_⟩
            intro x hx y hy
            have hxe : x = (cf, c - 1) := by
              have := hx
              simp only [List.getLast?_singleton, Option.mem_def,
                Option.some.injEq] at this
              exact this.symm
            have hyb := hrest.1 y (List.mem_of_mem_head? hy)
            simp only [Bool.cond_false] at hyb
            rw [hxe]
            have := hyb.1
            simp only
            omega
        · rw [if_neg hlt, List.nil_append]
          constructor
          · intro p hp
            have hb := hrest.1 p hp
            simp only [Bool.cond_false] at hb
            simp only [Bool.cond_true]
            exact ⟨by omega, hb.2.1, hb.2.2⟩
          · exact hrest.2
      | false =>
        rw [show bltfGo S t (c :: List.range' (c + 1) n) cf true =
          bltfGo S t (List.range' (c + 1) n) cf true by
            simp [bltfGo, hcont]]
        exact ih (c + 1) cf true (by omega) (fun _ => ⟨by omega, hct⟩)
    | false =>
      cases hcont : frContains S c with
      | true =>
        rw [show bltfGo S t (c :: List.range' (c + 1) n) cf false =
          bltfGo S t (List.range' (c + 1) n) cf false by
            simp [bltfGo, hcont]]
        have hrest := ih (c + 1) cf false (by omega) (by intro hh; cases hh)
        constructor
        · intro p hp
          have hb := hrest.1 p hp
          simp only [Bool.cond_false] at hb ⊢
          exact ⟨by omega, hb.2.1, hb.2.2⟩
        · exact hrest.2
      | false =>
        rw [show bltfGo S t (c :: List.range' (c + 1) n) cf false =
          bltfGo S t (List.range' (c + 1) n) c true by
            simp [bltfGo, hcont]]
        have hrest := ih (c + 1) c true (by omega) (fun _ => ⟨by omega, by omega⟩)
        constructor
        · intro p hp
          have hb := hrest.1 p hp
          simp only [Bool.cond_true] at hb
          simp only [Bool.cond_false]
          exact hb
        · exact hrest.2

/-- C6: for every fetched-range set `S` and interval `[f, t]` with
`1 ≤ f ≤ t`, `blocks_left_to_fetch` returns pairwise-disjoint, ordered
sub-intervals of `[f, t]` whose union is exactly the set of heights in
`[f, t]` not covered by `S`. -/
theorem claim_C6 (S : FetchedRanges) (f t : ℕ) (h1 : 1 ≤ f) (h2 : f ≤ t) :
    (∀ p ∈ blocksLeftToFetch S f t, f ≤ p.1 ∧ p.1 ≤ p.2 ∧ p.2 ≤ t) ∧
    List.Chain' (fun p q : ℕ × ℕ => p.2 < q.1) (blocksLeftToFetch S f t) ∧
    ∀ h, memI (blocksLeftToFetch S f t) h ↔
      (f ≤ h ∧ h ≤ t ∧ frContains S h = false) := by
  have hb := bltfGo_bounds S t (t + 1 - f) f f true (by omega)
    (fun _ => ⟨le_refl f, h2⟩)
  have hm := bltfGo_memI S t (t + 1 - f) f f true (by omega)
    (fun _ => ⟨le_refl f, fun x hx1 hx2 => absurd hx2 (by omega)⟩)
  exact ⟨fun p hp => hb.1 p hp, hb.2, fun h => hm h⟩

/-- C6 (witness): the spec's own end-to-end scenario — with ranges
`{[2,5],[7,8]}`, the gap list of `[1,10]` covers height 6 and does not
cover height 3. -/
theorem claim_C6_witness :
    memI (blocksLeftToFetch [2, 5, 7, 8] 1 10) 6 ∧
    ¬ memI (blocksLeftToFetch [2, 5, 7, 8] 1 10) 3 := by
  have h := claim_C6 [2, 5, 7, 8] 1 10 (by decide) (by decide)
  constructor
  · exact (h.2.2 6).2 (by decide)
  · intro hm
    exact absurd ((h.2.2 3).1 hm).2.2 (by decide)

/-! ## Lemmas about insert/simplify and claim C7 -/

/-- Elements strictly before the found index do not satisfy the search
predicate (here: they are `≤ f`). -/
theorem take_findIdx_le (f : ℕ) :
    ∀ (l : List ℕ), ∀ x ∈ l.take (l.findIdx fun y => f < y), x ≤ f := by
  intro l
  induction l with
  | nil => simp
  | cons a l ih =>
    intro x hx
    rw [List.findIdx_cons] at hx
    cases hp : decide (f < a) with
    | true =>
      rw [hp] at hx
      simp at hx
    | false =>
      rw [hp] at hx
      simp only [cond_false, List.take_succ_cons, List.mem_cons] at hx
      rcases hx with rfl | hx
      · simpa using hp
      · exact ih x hx

/-- In a sorted list, every element from the found index on satisfies the
(monotone) search predicate. -/
theorem drop_findIdx_gt (f : ℕ) :
    ∀ (l : List ℕ), List.Sorted (· ≤ ·) l →
      ∀ x ∈ l.drop (l.findIdx fun y => f < y), f < x := by
  intro l
  induction l with
  | nil => simp
  | cons a l ih =>
    intro hs x hx
    rw [List.findIdx_cons] at hx
    cases hp : decide (f < a) with
    | true =>
      rw [hp] at hx
      simp only [cond_true, List.drop_zero, List.mem_cons] at hx
      have ha : f < a := by simpa using hp
      rcases hx with rfl | hx
      · exact ha
      · exact lt_of_lt_of_le ha ((List.pairwise_cons.1 hs).1 x hx)
    | false =>
      rw [hp] at hx
      simp only [cond_false, List.drop_succ_cons] at hx
      exact ih (List.pairwise_cons.1 hs).2 x hx

/-- The `insertIdx` at an in-bounds position is take-append-drop. -/
theorem insertIdx_take_drop :
    ∀ (l : List ℕ) (j : ℕ), j ≤ l.length → ∀ v,
      l.insertIdx j v = l.take j ++ v :: l.drop j := by
  intro l
  induction l with
  | nil =>
    intro j hj v
    have hj0 : j = 0 := by simpa using hj
    subst hj0
    simp
  | cons a l ih =>
    intro j hj v
    cases j with
    | zero => simp
    | succ j =>
      rw [List.insertIdx_succ_cons, ih j (by simpa using hj) v]
      simp

/-- Inserting a value `v` at a position where everything before is `≤ v`
and everything after is `≥ v` keeps the list sorted, leaves the prefix
unchanged and puts `v` at the head of the suffix. -/
theorem sorted_insert_between (l : List ℕ) (j v : ℕ)
    (hl : List.Sorted (· ≤ ·) l) (hj : j ≤ l.length)
    (hbefore : ∀ x ∈ l.take j, x ≤ v) (hafter : ∀ y ∈ l.drop j, v ≤ y) :
    List.Sorted (· ≤ ·) (l.insertIdx j v) ∧
      (l.insertIdx j v).take j = l.take j ∧
      (l.insertIdx j v).drop j = v :: l.drop j := by
  have hlen : (l.take j).length = j := by
    rw [List.length_take]
    omega
  rw [insertIdx_take_drop l j hj v]
  refine ⟨?_, List.take_left' hlen, List.drop_left' hlen⟩
  rw [List.Sorted, List.pairwise_append]
  refine ⟨hl.sublist (List.take_sublist j l), ?_, ?_⟩
  · rw [List.pairwise_cons]
    exact ⟨hafter, hl.sublist (List.drop_sublist j l)⟩
  · intro x hx y hy
    rcases List.mem_cons.1 hy with rfl | hy
    · exact hbefore x hx
    · exact le_trans (hbefore x hx) (hafter y hy)

/-- The `simplify` of a sorted nonempty endpoint list establishes the
fetched-range invariant: the one-pass merge of adjacent or overlapping
boundaries leaves even-length output with `l ≤ r` inside every pair and a
gap of at least two between pairs. -/
theorem simpPairs_wf (rest : List ℕ) (a : ℕ)
    (hs : List.Sorted (· ≤ ·) (a :: rest)) :
    frWf (a :: (simpPairs rest ++ [rest.getLastD a])) = true :=
  match rest with
  | [] => by
    show frWf [a, a] = true
    simp [frWf]
  | [b] => by
    have hab : a ≤ b := (List.pairwise_cons.1 hs).1 b (by simp)
    show frWf [a, b] = true
    simp [frWf, hab]
  | b :: c :: rest' => by
    have hab : a ≤ b := (List.pairwise_cons.1 hs).1 b (by simp)
    have hbc : b ≤ c :=
      (List.pairwise_cons.1 (List.pairwise_cons.1 hs).2).1 c (by simp)
    by_cases hm : b = c - 1 ∨ b = c
    · have hcond : (decide (b = c - 1) || decide (b = c)) = true := by
        simpa using hm
      have hsp : simpPairs (b :: c :: rest') = simpPairs rest' := by
        simp only [simpPairs, hcond, if_true]
      have hlast : (b :: c :: rest').getLastD a = rest'.getLastD c := by
        rw [List.getLastD_cons, List.getLastD_cons]
      rw [hsp, hlast]
      match rest' with
      | [] =>
        show frWf [a, c] = true
        simp [frWf, le_trans hab hbc]
      | d :: rest'' =>
        have hlast2 : (d :: rest'').getLastD c = (d :: rest'').getLastD a := by
          rw [List.getLastD_cons, List.getLastD_cons]
        rw [hlast2]
        refine simpPairs_wf (d :: rest'') a (hs.sublist ?_)
        exact List.Sublist.cons₂ a
          (((d :: rest'').sublist_cons_self c).trans
            ((c :: d :: rest'').sublist_cons_self b))
    · have hcond : (decide (b = c - 1) || decide (b = c)) = false := by
        push_neg at hm
        simp [hm.1, hm.2]
      have hsp : simpPairs (b :: c :: rest') = b :: c :: simpPairs rest' := by
        simp only [simpPairs, hcond, Bool.false_eq_true, if_false]
      have hlast : (b :: c :: rest').getLastD a = rest'.getLastD c := by
        rw [List.getLastD_cons, List.getLastD_cons]
      rw [hsp, hlast]
      have hrec := simpPairs_wf rest' c
        (hs.sublist (List.Sublist.cons a
          (List.Sublist.cons b (List.Sublist.refl (c :: rest')))))
      show frWf (a :: b :: (c :: (simpPairs rest' ++ [rest'.getLastD c]))) = true
      rw [show frWf (a :: b :: (c :: (simpPairs rest' ++ [rest'.getLastD c]))) =
        (decide (a ≤ b) && decide (b + 1 < c) &&
          frWf (c :: (simpPairs rest' ++ [rest'.getLastD c]))) from rfl]
      simp only [Bool.and_eq_true, decide_eq_true_eq]
      push_neg at hm
      exact ⟨⟨hab, by omega⟩, hrec⟩

/-- The pre-simplify list that `insert` builds is sorted. -/
theorem frInsertPre_sorted (s : FetchedRanges) (f t : ℕ)
    (hs : List.Sorted (· ≤ ·) s) (hft : f ≤ t) :
    List.Sorted (· ≤ ·) (frInsertPre s f t) := by
  simp only [frInsertPre]
  set s1 := s.filter fun x => decide (x < f) || decide (t < x) with hs1d
  have hs1 : List.Sorted (· ≤ ·) s1 := hs.filter _
  set j := frFindIndex s1 f with hjd
  have hjle : j ≤ s1.length := List.findIdx_le_length _
  have htake : ∀ x ∈ s1.take j, x ≤ f := take_findIdx_le f s1
  have hdropf : ∀ y ∈ s1.drop j, f < y := drop_findIdx_gt f s1 hs1
  have hdropt : ∀ y ∈ s1.drop j, t < y := by
    intro y hy
    have hmem : y ∈ s1 := (List.drop_sublist j s1).subset hy
    have hor : y < f ∨ t < y := by
      simpa using (List.mem_filter.1 hmem).2
    rcases hor with h1 | h1
    · exact absurd (hdropf y hy) (by omega)
    · exact h1
  by_cases hct : frContains s t
  · rw [hct]
    simp only [Bool.not_true, Bool.false_eq_true, if_false]
    by_cases hpar : j % 2 = 0
    · rw [if_pos hpar]
      exact (sorted_insert_between s1 j f hs1 hjle htake
        (fun y hy => le_of_lt (hdropf y hy))).1
    · rw [if_neg hpar]
      exact hs1
  · rw [Bool.not_eq_true] at hct
    rw [hct]
    simp only [Bool.not_false, if_true]
    have h2 := sorted_insert_between s1 j t hs1 hjle
      (fun x hx => le_trans (htake x hx) hft)
      (fun y hy => le_of_lt (hdropt y hy))
    by_cases hpar : j % 2 = 0
    · rw [if_pos hpar]
      have hjle2 : j ≤ (s1.insertIdx j t).length := by
        rw [List.length_insertIdx j s1 hjle]
        omega
      refine (sorted_insert_between (s1.insertIdx j t) j f h2.1 hjle2 ?_ ?_).1
      · rw [h2.2.1]
        exact htake
      · rw [h2.2.2]
        intro y hy
        rcases List.mem_cons.1 hy with rfl | hy
        · exact hft
        · exact le_of_lt (hdropf y hy)
    · rw [if_neg hpar]
      exact h2.1

/-- The pre-simplify list is never empty. -/
theorem frInsertPre_ne_nil (s : FetchedRanges) (f t : ℕ) :
    frInsertPre s f t ≠ [] := by
  simp only [frInsertPre]
  set s1 := s.filter fun x => decide (x < f) || decide (t < x) with hs1d
  set j := frFindIndex s1 f with hjd
  have hjle : j ≤ s1.length := List.findIdx_le_length _
  by_cases hpar : j % 2 = 0
  · rw [if_pos hpar]
    set s2 := if (!frContains s t) = true then s1.insertIdx j t else s1 with hs2d
    have hjle2 : j ≤ s2.length := by
      rw [hs2d]
      by_cases hct : (!frContains s t) = true
      · rw [if_pos hct, List.length_insertIdx j s1 hjle]
        omega
      · rw [if_neg hct]
        exact hjle
    intro hnil
    have hlen := @List.length_insertIdx ℕ f j s2 hjle2
    rw [hnil] at hlen
    simp at hlen
  · rw [if_neg hpar]
    have hj1 : 1 ≤ j := by omega
    have hs1ne : s1.length ≠ 0 := by omega
    by_cases hct : (!frContains s t) = true
    · rw [if_pos hct]
      intro hnil
      have hlen := @List.length_insertIdx ℕ t j s1 hjle
      rw [hnil] at hlen
      simp at hlen
    · rw [if_neg hct]
      intro hnil
      rw [hnil] at hs1ne
      simp at hs1ne

/-- The `simplify` of a sorted nonempty list satisfies the invariant. -/
theorem frSimplify_wf (v : FetchedRanges) (hv : List.Sorted (· ≤ ·) v)
    (hne : v ≠ []) : frWf (frSimplify v) = true := by
  match v with
  | [] => exact absurd rfl hne
  | a :: rest => exact simpPairs_wf rest a hv

/-- A well-formed fetched-range list is non-decreasing. -/
theorem frWf_chain (s : FetchedRanges) (hwf : frWf s = true) :
    List.Chain' (· ≤ ·) s := by
  match s with
  | [] => exact List.chain'_nil
  | [a] => simp [frWf] at hwf
  | a :: b :: rest =>
    simp only [frWf, Bool.and_eq_true, decide_eq_true_eq] at hwf
    obtain ⟨⟨hab, hgap⟩, hrest⟩ := hwf
    have ih := frWf_chain rest hrest
    rw [List.chain'_cons]
    refine ⟨hab, ?_⟩
    rw [List.chain'_cons']
    refine ⟨?_, ih⟩
    intro y hy
    match rest, hgap, hy with
    | [], _, hy => exact absurd hy (by simp)
    | c :: rest', hgap, hy =>
      have he : c = y := by simpa using hy
      have hg : b + 1 < c := by simpa using hgap
      omega

/-- A well-formed fetched-range list is sorted. -/
theorem frWf_sorted (s : FetchedRanges) (hwf : frWf s = true) :
    List.Sorted (· ≤ ·) s :=
  List.chain'_iff_pairwise.1 (frWf_chain s hwf)

/-- The `insert` preserves the fetched-range invariant. -/
theorem frInsert_wf (s : FetchedRanges) (f t : ℕ) (hwf : frWf s = true)
    (hft : f ≤ t) : frWf (frInsert s f t) = true := by
  by_cases hemp : s.isEmpty
  · rw [frInsert, if_pos hemp]
    simp [frWf, hft]
  · rw [frInsert, if_neg hemp]
    exact frSimplify_wf _ (frInsertPre_sorted s f t (frWf_sorted s hwf) hft)
      (frInsertPre_ne_nil s f t)

/-- C7 (amended): starting from the empty `FetchedRanges`, any sequence of
`insert(l, r)` calls with `l ≤ r` keeps the flat endpoint sequence
well-formed: even length, `l ≤ r` within every pair (equality for
singleton intervals), and `l' > r + 1` between consecutive pairs — the set
is always simplified.  (The flat sequence is non-decreasing but not
strictly increasing: a singleton interval stores its endpoint twice.) -/
theorem claim_C7 (ops : List (ℕ × ℕ)) (hops : ∀ op ∈ ops, op.1 ≤ op.2) :
    frWf (ops.foldl (fun s op => frInsert s op.1 op.2) []) = true := by
  have main : ∀ (l : List (ℕ × ℕ)) (s : FetchedRanges), frWf s = true →
      (∀ op ∈ l, op.1 ≤ op.2) →
      frWf (l.foldl (fun s op => frInsert s op.1 op.2) s) = true := by
    intro l
    induction l with
    | nil => intro s hs _; exact hs
    | cons op rest ih =>
      intro s hs hops
      exact ih _ (frInsert_wf s op.1 op.2 hs (hops op (by simp)))
        (fun q hq => hops q (List.mem_cons_of_mem _ hq))
  exact main ops [] rfl hops

/-- C7 (counterexample): inserting the singleton interval `[5, 5]` into the
empty set yields the flat sequence `[5, 5]`, which is not strictly
increasing — refuting the claim that the internal flat sequence is strictly
increasing. -/
theorem claim_C7_counterexample :
    List.foldl (fun s (op : ℕ × ℕ) => frInsert s op.1 op.2) [] [(5, 5)] =
      [5, 5] ∧
    ¬ List.Chain' (· < ·) [5, 5] := by
  refine ⟨rfl, ?_⟩
  intro h
  rw [List.chain'_cons] at h
  omega

/-- C7 (witness): the amended invariant evaluated on the spec's insert
sequence. -/
theorem claim_C7_witness :
    frWf (List.foldl (fun s (op : ℕ × ℕ) => frInsert s op.1 op.2) []
      [(5, 5), (2, 4), (7, 8)]) = true :=
  claim_C7 [(5, 5), (2, 4), (7, 8)] (by decide)

/-! ## Lemmas about first() and claim C5 -/

/-- Every element the boundary pass keeps comes from the input list. -/
theorem simpPairs_subset (l : List ℕ) : ∀ x ∈ simpPairs l, x ∈ l :=
  match l with
  | [] => by
    intro x hx
    simp [show simpPairs ([] : List ℕ) = [] from rfl] at hx
  | [b] => by
    intro x hx
    simp [show simpPairs [b] = [] from rfl] at hx
  | b :: c :: rest => by
    intro x hx
    by_cases hm : (decide (b = c - 1) || decide (b = c)) = true
    · rw [show simpPairs (b :: c :: rest) = simpPairs rest by
        simp only [simpPairs, hm, if_true]] at hx
      exact List.mem_cons_of_mem b
        (List.mem_cons_of_mem c (simpPairs_subset rest x hx))
    · rw [Bool.not_eq_true] at hm
      rw [show simpPairs (b :: c :: rest) = b :: c :: simpPairs rest by
        simp only [simpPairs, hm, Bool.false_eq_true, if_false]] at hx
      rcases List.mem_cons.1 hx with rfl | hx
      · simp
      · rcases List.mem_cons.1 hx with rfl | hx
        · simp
        · exact List.mem_cons_of_mem b
            (List.mem_cons_of_mem c (simpPairs_subset rest x hx))

/-- An element of `insertIdx` is the inserted value or an original
element. -/
theorem mem_insertIdx_cases (l : List ℕ) (j v x : ℕ)
    (hx : x ∈ l.insertIdx j v) : x = v ∨ x ∈ l := by
  by_cases hj : j ≤ l.length
  · exact (List.mem_insertIdx hj).1 hx
  · rw [List.insertIdx_of_length_lt l v j (by omega)] at hx
    exact Or.inr hx

/-- Simplifying a list that starts `l0 :: r0 :: tail` with all of `tail`
above `r0` leaves the first interval ending at or above `r0`. -/
theorem frSimplify_first_ge (a b : ℕ) (tail : List ℕ)
    (hall : ∀ x ∈ tail, b ≤ x) :
    b + 1 ≤ frFirst (frSimplify (a :: b :: tail)) := by
  show b + 1 ≤ frFirst (a :: (simpPairs (b :: tail) ++ [(b :: tail).getLastD a]))
  cases hsp : simpPairs (b :: tail) with
  | nil =>
    have hl : (b :: tail).getLastD a ∈ b :: tail := by
      rw [List.getLastD_cons]
      exact List.getLastD_mem_cons tail b
    have hb : b ≤ (b :: tail).getLastD a := by
      rcases List.mem_cons.1 hl with he | hm
      · omega
      · exact hall _ hm
    rw [List.nil_append]
    show b + 1 ≤ (b :: tail).getLastD a + 1
    omega
  | cons u us =>
    have hu : u ∈ simpPairs (b :: tail) := by
      rw [hsp]
      simp
    have humem : u ∈ b :: tail := simpPairs_subset (b :: tail) u hu
    have hb : b ≤ u := by
      rcases List.mem_cons.1 humem with he | hm
      · omega
      · exact hall u hm
    show b + 1 ≤ u + 1
    omega

/-- The head structure of the spliced list before simplification: when the
inserted interval starts above the first interval's end, the first
interval's endpoints survive untouched at the front, and everything behind
them stays at or above `r0`. -/
theorem frInsertPre_head (l0 r0 : ℕ) (rest : List ℕ) (f t : ℕ)
    (hrest : ∀ x ∈ rest, r0 ≤ x) (hl0f : l0 < f) (hr0f : r0 < f)
    (hft : f ≤ t) :
    ∃ tail, frInsertPre (l0 :: r0 :: rest) f t = l0 :: r0 :: tail ∧
      ∀ x ∈ tail, r0 ≤ x := by
  simp only [frInsertPre]
  have hf1 : (l0 :: r0 :: rest).filter
      (fun x => decide (x < f) || decide (t < x)) =
      l0 :: r0 :: rest.filter (fun x => decide (x < f) || decide (t < x)) := by
    rw [List.filter_cons, List.filter_cons]
    simp only [show decide (l0 < f) = true by simpa using hl0f,
      show decide (r0 < f) = true by simpa using hr0f, Bool.true_or, if_true]
  rw [hf1]
  have hrsmem : ∀ x ∈ rest.filter (fun x => decide (x < f) || decide (t < x)),
      r0 ≤ x := fun x hx => hrest x (List.mem_of_mem_filter hx)
  set rs := rest.filter (fun x => decide (x < f) || decide (t < x)) with hrs
  have hfi : frFindIndex (l0 :: r0 :: rs) f = (frFindIndex rs f) + 1 + 1 := by
    unfold frFindIndex
    rw [List.findIdx_cons, List.findIdx_cons]
    simp only [show decide (f < l0) = false by simp; omega,
      show decide (f < r0) = false by simp; omega, cond_false]
  rw [hfi]
  have hmemtail : ∀ (L : List ℕ), (∀ x ∈ L, r0 ≤ x) → ∀ (j v : ℕ), r0 ≤ v →
      ∀ x ∈ L.insertIdx j v, r0 ≤ x := by
    intro L hL j v hv x hx
    rcases mem_insertIdx_cases L j v x hx with rfl | hx
    · exact hv
    · exact hL x hx
  by_cases hct : (!frContains (l0 :: r0 :: rest) t) = true
  · rw [if_pos hct, List.insertIdx_succ_cons, List.insertIdx_succ_cons]
    by_cases hpar : (frFindIndex rs f + 1 + 1) % 2 = 0
    · rw [if_pos hpar, List.insertIdx_succ_cons, List.insertIdx_succ_cons]
      refine ⟨_, rfl, ?_⟩
      exact hmemtail _ (hmemtail rs hrsmem _ t (by omega)) _ f (by omega)
    · rw [if_neg hpar]
      exact ⟨_, rfl, hmemtail rs hrsmem _ t (by omega)⟩
  · rw [if_neg hct]
    by_cases hpar : (frFindIndex rs f + 1 + 1) % 2 = 0
    · rw [if_pos hpar, List.insertIdx_succ_cons, List.insertIdx_succ_cons]
      exact ⟨_, rfl, hmemtail rs hrsmem _ f (by omega)⟩
    · rw [if_neg hpar]
      exact ⟨_, rfl, hrsmem⟩

/-- C5 (amended): `first()` is monotone non-decreasing under
`insert(from, to)` whenever the inserted interval does not start strictly
below the current `first()` — in particular for every insertion of a
not-yet-fetched range at or above the frontier.  (In general `first()` can
decrease: see the counterexample.) -/
theorem claim_C5_amended (s : FetchedRanges) (f t : ℕ) (hwf : frWf s = true)
    (hf : frFirst s ≤ f) (hft : f ≤ t) :
    frFirst s ≤ frFirst (frInsert s f t) := by
  match s with
  | [] =>
    show (1 : ℕ) ≤ frFirst (frInsert [] f t)
    rw [show frInsert [] f t = [f, t] from rfl]
    show (1 : ℕ) ≤ t + 1
    omega
  | [a] => simp [frWf] at hwf
  | l0 :: r0 :: rest =>
    have hsorted := frWf_sorted _ hwf
    have hl0 : l0 ≤ r0 := (List.pairwise_cons.1 hsorted).1 r0 (by simp)
    have hrest : ∀ x ∈ rest, r0 ≤ x :=
      (List.pairwise_cons.1 (List.pairwise_cons.1 hsorted).2).1
    have hr0f : r0 < f := by
      have he : frFirst (l0 :: r0 :: rest) = r0 + 1 := rfl
      omega
    obtain ⟨tail, hpre, htail⟩ :=
      frInsertPre_head l0 r0 rest f t hrest (by omega) hr0f hft
    rw [frInsert, if_neg (by simp)]
    rw [hpre]
    have hge := frSimplify_first_ge l0 r0 tail htail
    show r0 + 1 ≤ _
    exact hge

/-- C5 (counterexample): inserting `[1, 3]` into `{[5, 7]}` (both reachable
by `insert` from empty) drops `first()` from 8 to 4, refuting the claim
that `first()` is monotone non-decreasing under every `insert`. -/
theorem claim_C5_counterexample :
    frFirst (frInsert [] 5 7) = 8 ∧
    frFirst (frInsert (frInsert [] 5 7) 1 3) = 4 ∧ ¬ (8 : ℕ) ≤ 4 := by
  refine ⟨rfl, rfl, by omega⟩

/-- C5 (witness): the amended statement at a concrete input. -/
theorem claim_C5_witness :
    frFirst [5, 7] ≤ frFirst (frInsert [5, 7] 8 9) :=
  claim_C5_amended [5, 7] 8 9 (by decide) (by decide) (by decide)

/-! ## Lemmas about IndexList::combine and claims C8, C9 -/

/-- Sorting preserves membership. -/
theorem mem_sortIL (l : List Index) (x : Index) : x ∈ sortIL l ↔ x ∈ l :=
  (List.perm_insertionSort leIx l).mem_iff

/-- In a list sorted by the derived index order, every element is at most
the last element. -/
theorem sorted_getLastD_max (d : Index) :
    ∀ (l : List Index), List.Sorted leIx l → ∀ x ∈ l, leIx x (l.getLastD d) :=
  fun l =>
  match l with
  | [] => by
    intro _ x hx
    cases hx
  | [a] => by
    intro _ x hx
    rcases List.mem_singleton.1 hx with rfl
    exact Or.inr ⟨rfl, le_refl _⟩
  | a :: b :: rest => by
    intro hs x hx
    rw [List.getLastD_cons]
    have hmem : (b :: rest).getLastD a ∈ b :: rest := by
      rw [List.getLastD_cons]
      exact List.getLastD_mem_cons rest b
    rcases List.mem_cons.1 hx with rfl | hx
    · exact (List.pairwise_cons.1 hs).1 _ hmem
    · exact sorted_getLastD_max a (b :: rest) (List.pairwise_cons.1 hs).2 x hx

/-- Every member's height is bounded by the list's maximum height. -/
theorem height_le_lastHeight (l : List Index) (x : Index) (hx : x ∈ l) :
    x.height ≤ lastHeight l := by
  have hmem : x ∈ sortIL l := (mem_sortIL l x).2 hx
  have hle := sorted_getLastD_max ⟨0, 0⟩ (sortIL l)
    (List.sorted_insertionSort leIx l) x hmem
  rcases hle with h | ⟨h, _⟩
  · exact le_of_lt h
  · exact le_of_eq h

/-- Combining with an empty list on the left returns the other list. -/
theorem combine_nil_left (x : List Index) : combine [] x = x := by
  simp [combine]

/-- Combining with an empty list on the right returns the other list. -/
theorem combine_nil_right (x : List Index) : combine x [] = x := by
  match x with
  | [] => simp [combine]
  | a :: l => simp [combine]

/-- The membership characterization of `combine` for nonempty inputs: the
further-synced list is filtered down to entries above the lower maximum
height or contained in the other list. -/
theorem combine_mem (a b : List Index) (ha : a ≠ []) (hb : b ≠ [])
    (ix : Index) :
    ix ∈ combine a b ↔
      (if lastHeight a < lastHeight b
       then ix ∈ b ∧ (lastHeight a < ix.height ∨ ix ∈ a)
       else ix ∈ a ∧ (lastHeight b < ix.height ∨ ix ∈ b)) := by
  unfold combine
  rw [if_neg (by simpa [List.isEmpty_iff] using ha),
    if_neg (by simpa [List.isEmpty_iff] using hb)]
  by_cases hlt : lastHeight a < lastHeight b
  · rw [if_pos hlt, if_pos hlt]
    simp [List.mem_filter, mem_sortIL]
  · rw [if_neg hlt, if_neg hlt]
    simp [List.mem_filter, mem_sortIL]

/-- C8: for nonempty lists with `Ha ≥ Hb`, `combine(a, b)` computes the set
`(a ∩ b restricted to height ≤ Hb) ∪ (a restricted to height > Hb)`; it is
symmetric (as a set) under swapping its arguments; the empty list is an
identity in either position; and for equal maximum heights the result is
the intersection. -/
theorem claim_C8 :
    (∀ (a b : List Index), a ≠ [] → b ≠ [] →
      lastHeight b ≤ lastHeight a → ∀ ix,
      (ix ∈ combine a b ↔
        ((ix ∈ a ∧ ix ∈ b ∧ ix.height ≤ lastHeight b) ∨
          (ix ∈ a ∧ lastHeight b < ix.height)))) ∧
    (∀ (a b : List Index) (ix : Index), ix ∈ combine a b ↔ ix ∈ combine b a) ∧
    (∀ x : List Index, combine [] x = x ∧ combine x [] = x) ∧
    (∀ (a b : List Index), a ≠ [] → b ≠ [] →
      lastHeight a = lastHeight b → ∀ ix,
      (ix ∈ combine a b ↔ (ix ∈ a ∧ ix ∈ b))) := by
  refine ⟨?_, ?_, fun x => ⟨combine_nil_left x, combine_nil_right x⟩, ?_⟩
  · intro a b ha hb hba ix
    rw [combine_mem a b ha hb ix, if_neg (by omega)]
    constructor
    · rintro ⟨hia, hor⟩
      rcases hor with hh | hib
      · exact Or.inr ⟨hia, hh⟩
      · by_cases hh : lastHeight b < ix.height
        · exact Or.inr ⟨hia, hh⟩
        · exact Or.inl ⟨hia, hib, by omega⟩
    · rintro (⟨h1, h2, h3⟩ | ⟨h1, h2⟩)
      · exact ⟨h1, Or.inr h2⟩
      · exact ⟨h1, Or.inl h2⟩
  · intro a b ix
    by_cases ha : a = []
    · rw [ha, combine_nil_left, combine_nil_right]
    · by_cases hb : b = []
      · rw [hb, combine_nil_left, combine_nil_right]
      · rw [combine_mem a b ha hb ix, combine_mem b a hb ha ix]
        rcases lt_trichotomy (lastHeight a) (lastHeight b) with h | h | h
        · rw [if_pos h, if_neg (by omega)]
        · rw [if_neg (by omega), if_neg (by omega)]
          constructor
          · rintro ⟨hia, hor⟩
            have hha : ix.height ≤ lastHeight a := height_le_lastHeight a ix hia
            rcases hor with hh | hib
            · exact absurd hh (by omega)
            · exact ⟨hib, Or.inr hia⟩
          · rintro ⟨hib, hor⟩
            have hhb : ix.height ≤ lastHeight b := height_le_lastHeight b ix hib
            rcases hor with hh | hia
            · exact absurd hh (by omega)
            · exact ⟨hia, Or.inr hib⟩
        · rw [if_neg (by omega), if_pos h]
  · intro a b ha hb he ix
    rw [combine_mem a b ha hb ix, if_neg (by omega)]
    constructor
    · rintro ⟨hia, hor⟩
      have hha : ix.height ≤ lastHeight a := height_le_lastHeight a ix hia
      rcases hor with hh | hib
      · exact absurd hh (by omega)
      · exact ⟨hia, hib⟩
    · rintro ⟨h1, h2⟩
      exact ⟨h1, Or.inr h2⟩

/-- C8 (witness): the source's own `test_combine_indices` vectors. -/
theorem claim_C8_witness :
    (⟨0, 1⟩ : Index) ∈
      combine [⟨0, 0⟩, ⟨0, 1⟩, ⟨1, 0⟩, ⟨3, 0⟩] [⟨0, 1⟩, ⟨1, 4⟩] :=
  (claim_C8.1 [⟨0, 0⟩, ⟨0, 1⟩, ⟨1, 0⟩, ⟨3, 0⟩] [⟨0, 1⟩, ⟨1, 4⟩]
    (by decide) (by decide) (by decide) ⟨0, 1⟩).2 (by decide)

/-- C9 (counterexample): `a = [(1,0)]` and `b = [(2,0)]` are nonempty,
height-disjoint, and `max(a) < max(b)`, yet `combine(a, b) = [(2,0)]` does
not contain `(1,0)` — the elements of `a` do not survive, refuting
`combine(a, b) ⊇ a`. -/
theorem claim_C9_counterexample :
    combine [⟨1, 0⟩] [⟨2, 0⟩] = [⟨2, 0⟩] ∧
    lastHeight [(⟨1, 0⟩ : Index)] < lastHeight [(⟨2, 0⟩ : Index)] ∧
    ¬ ((⟨1, 0⟩ : Index) ∈ combine [⟨1, 0⟩] [⟨2, 0⟩]) := by
  refine ⟨rfl, by decide, by decide⟩

/-- C9 (amended): for nonempty height-disjoint lists with
`max(a) < max(b)`, `combine(a, b)` is exactly the portion of `b` above
`max(a)` — none of `a` survives, and all of `b` above `max(a)` does. -/
theorem claim_C9_amended (a b : List Index) (ha : a ≠ []) (hb : b ≠ [])
    (hd : ∀ x ∈ a, ∀ y ∈ b, x.height ≠ y.height)
    (hab : lastHeight a < lastHeight b) (ix : Index) :
    ix ∈ combine a b ↔ (ix ∈ b ∧ lastHeight a < ix.height) := by
  rw [combine_mem a b ha hb ix, if_pos hab]
  constructor
  · rintro ⟨hib, hor⟩
    rcases hor with hh | hia
    · exact ⟨hib, hh⟩
    · exact absurd rfl (hd ix hia ix hib)
  · rintro ⟨h1, h2⟩
    exact ⟨h1, Or.inl h2⟩

/-- C9 (witness): the amended statement at the counterexample's input. -/
theorem claim_C9_witness :
    (⟨2, 0⟩ : Index) ∈ combine [⟨1, 0⟩] [⟨2, 0⟩] :=
  (claim_C9_amended [⟨1, 0⟩] [⟨2, 0⟩] (by decide) (by decide) (by decide)
    (by decide) ⟨2, 0⟩).2 (by decide)
